import Mathlib

/-!
Shallow embedding of the Xiangqi rules engine (`src/chess_core/engine.py`,
class `ChineseChess`) and verification of its specification claims.

Modelling conventions:
* the numpy `(10, 9)` int8 board becomes a total function `ℤ → ℤ → ℤ`;
  every board read in the source is guarded by an in-bounds test (or by the
  palace test, which implies bounds), so a total function is observationally
  faithful to the guarded numpy accesses;
* Python `//` is floor division, embedded as `Int.fdiv`;
* the strings `'red'` / `'black'` become the enumeration `Player`;
* list `append` / `extend` loops become `filterMap` / `flatMap` over the
  same direction lists in the same order; the `for step in range(1, 10)`
  ray loops with `break` become structural recursion over `List.range' 1 9`;
* `make_move` mutates `self` in Python; it is embedded in state-passing
  style as `GameState → Move → Bool × GameState`.
-/

namespace Xiangqi

/-- Sides, embedding the Python strings `'red'` and `'black'`. -/
inductive Player where
  | red : Player
  | black : Player
deriving DecidableEq, Repr

/-- `sign = 1 if player == 'red' else -1` from `get_legal_moves`. -/
def signOf : Player → ℤ
  | Player.red => 1
  | Player.black => -1

/-- The board: a total function on integer coordinates. In-bounds cells are
`0 ≤ x < 10`, `0 ≤ y < 9`; the engine only ever reads in-bounds cells. -/
abbrev Board : Type := ℤ → ℤ → ℤ

/-- A move `(fromRow, fromCol, toRow, toCol)`, as in the Python 4-tuples. -/
abbrev Move : Type := ℤ × ℤ × ℤ × ℤ

/-- A single numpy cell assignment `board[x, y] = v`. -/
def setCell (b : Board) (x y v : ℤ) : Board :=
  fun i j => if i = x ∧ j = y then v else b i j

/-- `_is_in_palace`: rows 7..9 for sign 1 (otherwise rows 0..2), cols 3..5. -/
def is_in_palace (x y sign : ℤ) : Bool :=
  (if sign = 1 then decide (7 ≤ x ∧ x ≤ 9) else decide (0 ≤ x ∧ x ≤ 2))
    && decide (3 ≤ y ∧ y ≤ 5)

/-- `_is_in_territory`: rows 5..9 for sign 1, otherwise rows 0..4. -/
def is_in_territory (x sign : ℤ) : Bool :=
  if sign = 1 then decide (5 ≤ x ∧ x ≤ 9) else decide (0 ≤ x ∧ x ≤ 4)

/-- `_general_moves`: one orthogonal step, kept inside the palace, not onto
an own piece. -/
def general_moves (b : Board) (x y sign : ℤ) : List Move :=
  ([(0, 1), (1, 0), (0, -1), (-1, 0)] : List (ℤ × ℤ)).filterMap fun d =>
    let nx := x + d.1
    let ny := y + d.2
    if is_in_palace nx ny sign ∧ b nx ny * sign ≤ 0 then
      some (x, y, nx, ny)
    else none

/-- `_advisor_moves`: one diagonal step, kept inside the palace, not onto an
own piece. -/
def advisor_moves (b : Board) (x y sign : ℤ) : List Move :=
  ([(1, 1), (1, -1), (-1, 1), (-1, -1)] : List (ℤ × ℤ)).filterMap fun d =>
    let nx := x + d.1
    let ny := y + d.2
    if is_in_palace nx ny sign ∧ b nx ny * sign ≤ 0 then
      some (x, y, nx, ny)
    else none

/-- `_elephant_moves`: two-step diagonal, destination on the board and in own
territory, blocking "eye" cell `(x + dx // 2, y + dy // 2)` empty,
destination not an own piece. -/
def elephant_moves (b : Board) (x y sign : ℤ) : List Move :=
  ([(2, 2), (2, -2), (-2, 2), (-2, -2)] : List (ℤ × ℤ)).filterMap fun d =>
    let nx := x + d.1
    let ny := y + d.2
    if 0 ≤ nx ∧ nx < 10 ∧ 0 ≤ ny ∧ ny < 9 then
      if is_in_territory nx sign then
        let bx := x + Int.fdiv d.1 2
        let bY := y + Int.fdiv d.2 2
        if 0 ≤ bx ∧ bx < 10 ∧ 0 ≤ bY ∧ bY < 9 ∧ b bx bY = 0 ∧ b nx ny * sign ≤ 0 then
          some (x, y, nx, ny)
        else none
      else none
    else none

/-- `_horse_moves`: eight L-shaped offsets; destination on the board; blocking
cell `(x + dx // 2, y + dy // 2)` (Python floor division) on the board and
empty; destination not an own piece. -/
def horse_moves (b : Board) (x y sign : ℤ) : List Move :=
  ([(1, 2), (2, 1), (1, -2), (2, -1),
    (-1, 2), (-2, 1), (-1, -2), (-2, -1)] : List (ℤ × ℤ)).filterMap fun d =>
    let nx := x + d.1
    let ny := y + d.2
    if 0 ≤ nx ∧ nx < 10 ∧ 0 ≤ ny ∧ ny < 9 then
      let bx := x + Int.fdiv d.1 2
      let bY := y + Int.fdiv d.2 2
      if 0 ≤ bx ∧ bx < 10 ∧ 0 ≤ bY ∧ bY < 9 ∧ b bx bY = 0 ∧ b nx ny * sign ≤ 0 then
        some (x, y, nx, ny)
      else none
    else none

/-- The body of the `for step in range(1, 10)` loop of `_chariot_moves` along
one direction: empty cells are appended and the scan continues; the first
occupied cell is appended only when it is an enemy piece, and the scan stops
there; leaving the board stops the scan. -/
def chariotGo (b : Board) (x y dx dy sign : ℤ) : List ℕ → List Move
  | [] => []
  | step :: rest =>
    let nx := x + dx * (step : ℤ)
    let ny := y + dy * (step : ℤ)
    if 0 ≤ nx ∧ nx < 10 ∧ 0 ≤ ny ∧ ny < 9 then
      if b nx ny = 0 then
        (x, y, nx, ny) :: chariotGo b x y dx dy sign rest
      else if b nx ny * sign < 0 then
        [(x, y, nx, ny)]
      else []
    else []

/-- `_chariot_moves`: the four orthogonal rays, steps 1..9. -/
def chariot_moves (b : Board) (x y sign : ℤ) : List Move :=
  ([(0, 1), (1, 0), (0, -1), (-1, 0)] : List (ℤ × ℤ)).flatMap fun d =>
    chariotGo b x y d.1 d.2 sign (List.range' 1 9)

/-- The body of the `for step in range(1, 10)` loop of `_cannon_moves` along
one direction, with the `has_jumped` flag: before the jump, empty cells are
appended and the first occupied cell flips the flag; after the jump, empty
cells are skipped and the first occupied cell is appended only when enemy,
and the scan stops there; leaving the board stops the scan. -/
def cannonGo (b : Board) (x y dx dy sign : ℤ) : Bool → List ℕ → List Move
  | _, [] => []
  | jumped, step :: rest =>
    let nx := x + dx * (step : ℤ)
    let ny := y + dy * (step : ℤ)
    if 0 ≤ nx ∧ nx < 10 ∧ 0 ≤ ny ∧ ny < 9 then
      if jumped then
        if b nx ny ≠ 0 then
          if b nx ny * sign < 0 then [(x, y, nx, ny)] else []
        else cannonGo b x y dx dy sign true rest
      else
        if b nx ny = 0 then
          (x, y, nx, ny) :: cannonGo b x y dx dy sign false rest
        else cannonGo b x y dx dy sign true rest
    else []

/-- `_cannon_moves`: the four orthogonal rays, steps 1..9, starting with
`has_jumped = False`. -/
def cannon_moves (b : Board) (x y sign : ℤ) : List Move :=
  ([(0, 1), (1, 0), (0, -1), (-1, 0)] : List (ℤ × ℤ)).flatMap fun d =>
    cannonGo b x y d.1 d.2 sign false (List.range' 1 9)

/-- `_soldier_moves`: one step forward; sideways steps are added after
crossing the river (`x <= 4` for sign 1, `x >= 5` otherwise); destination on
the board and not an own piece. -/
def soldier_moves (b : Board) (x y sign : ℤ) : List Move :=
  let dirs : List (ℤ × ℤ) :=
    if sign = 1 then
      (-1, 0) :: (if x ≤ 4 then [(0, 1), (0, -1)] else [])
    else
      (1, 0) :: (if x ≥ 5 then [(0, 1), (0, -1)] else [])
  dirs.filterMap fun d =>
    let nx := x + d.1
    let ny := y + d.2
    if 0 ≤ nx ∧ nx < 10 ∧ 0 ≤ ny ∧ ny < 9 then
      if b nx ny * sign ≤ 0 then some (x, y, nx, ny) else none
    else none

/-- `_get_piece_moves`: dispatch on `abs(piece)`. -/
def get_piece_moves (b : Board) (x y : ℤ) (piece_type : ℕ) (sign : ℤ) :
    List Move :=
  if piece_type = 1 then general_moves b x y sign
  else if piece_type = 2 then advisor_moves b x y sign
  else if piece_type = 3 then elephant_moves b x y sign
  else if piece_type = 4 then horse_moves b x y sign
  else if piece_type = 5 then chariot_moves b x y sign
  else if piece_type = 6 then cannon_moves b x y sign
  else if piece_type = 7 then soldier_moves b x y sign
  else []

/-- `get_legal_moves`: scan the grid row-major and collect the moves of every
piece of the given player. -/
def get_legal_moves (b : Board) (player : Player) : List Move :=
  (List.range 10).flatMap fun i =>
    (List.range 9).flatMap fun j =>
      let piece := b (i : ℤ) (j : ℤ)
      if piece * signOf player > 0 then
        get_piece_moves b (i : ℤ) (j : ℤ) piece.natAbs (signOf player)
      else []

/-- A history entry `{'player': ..., 'move': ..., 'captured': ...}`. -/
abbrev HistEntry : Type := Player × Move × ℤ

/-- The mutable state of a `ChineseChess` instance. -/
structure GameState where
  board : Board
  current_player : Player
  game_over : Bool
  winner : Option Player
  move_history : List HistEntry

/-- `np.any(self.board == v)` over the 10×9 grid. -/
def board_any (b : Board) (v : ℤ) : Bool :=
  (List.range 10).any fun i =>
    (List.range 9).any fun j => decide (b (i : ℤ) (j : ℤ) = v)

/-- `_check_game_over`: the game ends exactly when a General (cell value
`1` or `-1`) is absent; the winner is the other side. -/
def check_game_over (s : GameState) : GameState :=
  if board_any s.board 1 = false then
    { s with game_over := true, winner := some Player.black }
  else if board_any s.board (-1) = false then
    { s with game_over := true, winner := some Player.red }
  else s

/-- `make_move`, in state-passing style: the returned `Bool` is the Python
return value and the returned `GameState` is `self` after the call. -/
def make_move (s : GameState) (m : Move) : Bool × GameState :=
  if s.game_over then (false, s)
  else if m ∈ get_legal_moves s.board s.current_player then
    match m with
    | (x1, y1, x2, y2) =>
      let captured := s.board x2 y2
      let b1 := setCell s.board x2 y2 (s.board x1 y1)
      let b2 := setCell b1 x1 y1 0
      let s1 : GameState :=
        { board := b2
          current_player :=
            if s.current_player = Player.red then Player.black else Player.red
          game_over := s.game_over
          winner := s.winner
          move_history := s.move_history ++ [(s.current_player, m, captured)] }
      (true, check_game_over s1)
  else (false, s)

/-- `_init_board`: the canonical starting layout, written as the same
sequence of cell assignments as the source, starting from the zero board. -/
def init_board : Board :=
  let b := fun (_ _ : ℤ) => (0 : ℤ)
  let b := setCell b 9 0 5
  let b := setCell b 9 8 5
  let b := setCell b 9 1 4
  let b := setCell b 9 7 4
  let b := setCell b 9 2 3
  let b := setCell b 9 6 3
  let b := setCell b 9 3 2
  let b := setCell b 9 5 2
  let b := setCell b 9 4 1
  let b := setCell b 7 1 6
  let b := setCell b 7 7 6
  let b := setCell b 6 0 7
  let b := setCell b 6 2 7
  let b := setCell b 6 4 7
  let b := setCell b 6 6 7
  let b := setCell b 6 8 7
  let b := setCell b 0 0 (-5)
  let b := setCell b 0 8 (-5)
  let b := setCell b 0 1 (-4)
  let b := setCell b 0 7 (-4)
  let b := setCell b 0 2 (-3)
  let b := setCell b 0 6 (-3)
  let b := setCell b 0 3 (-2)
  let b := setCell b 0 5 (-2)
  let b := setCell b 0 4 (-1)
  let b := setCell b 2 1 (-6)
  let b := setCell b 2 7 (-6)
  let b := setCell b 3 0 (-7)
  let b := setCell b 3 2 (-7)
  let b := setCell b 3 4 (-7)
  let b := setCell b 3 6 (-7)
  let b := setCell b 3 8 (-7)
  b

/-- `ChineseChess.__init__`: fresh board, Red to move, game in progress. -/
def initGame : GameState :=
  { board := init_board
    current_player := Player.red
    game_over := false
    winner := none
    move_history := [] }

/-- Apply a sequence of `make_move` calls, keeping only the state (the
driver's game loop shape). -/
def applyMoves (s : GameState) (ms : List Move) : GameState :=
  ms.foldl (fun t m => (make_move t m).2) s

end Xiangqi

namespace Xiangqi

/-- The back-rank piece pattern 5,4,3,2,1,2,3,4,5 named by the claim. -/
def spec_back_rank (j : ℤ) : ℤ :=
  if j = 0 ∨ j = 8 then 5
  else if j = 1 ∨ j = 7 then 4
  else if j = 2 ∨ j = 6 then 3
  else if j = 3 ∨ j = 5 then 2
  else if j = 4 then 1
  else 0

/-- The canonical starting layout as the specification words it: Red back
rank on row 9, Cannons at (7,1)/(7,7), Soldiers on row 6 even columns,
Black mirrored on rows 0, 2, 3 with negated values, all other cells zero.
This is the spec-side definition to be compared with `init_board`. -/
def spec_start_board (i j : ℤ) : ℤ :=
  if i = 9 then spec_back_rank j
  else if i = 0 then -(spec_back_rank j)
  else if i = 7 ∧ (j = 1 ∨ j = 7) then 6
  else if i = 2 ∧ (j = 1 ∨ j = 7) then -6
  else if i = 6 ∧ (j = 0 ∨ j = 2 ∨ j = 4 ∨ j = 6 ∨ j = 8) then 7
  else if i = 3 ∧ (j = 0 ∨ j = 2 ∨ j = 4 ∨ j = 6 ∨ j = 8) then -7
  else 0

end Xiangqi

namespace Xiangqi

/-- C7: a newly constructed game has the canonical starting layout on every
board cell (Red back rank 5,4,3,2,1,2,3,4,5 on row 9, Cannons and Soldiers
on rows 7 and 6, Black mirrored with negated signs on rows 0, 2, 3, all
other cells zero), Red to move, the game not over, no winner, and an empty
move history. -/
theorem init_state_canonical :
    (∀ (i : Fin 10) (j : Fin 9),
      initGame.board ((i : ℕ) : ℤ) ((j : ℕ) : ℤ) =
        spec_start_board ((i : ℕ) : ℤ) ((j : ℕ) : ℤ)) ∧
    initGame.current_player = Player.red ∧
    initGame.game_over = false ∧
    initGame.winner = none ∧
    initGame.move_history = [] := by
  refine ⟨by decide, rfl, rfl, rfl, rfl⟩

end Xiangqi

namespace Xiangqi

/-- The method call `self.get_legal_moves(player)` in state-passing style:
the method body only reads `self.board` and builds a local list — it contains
no assignment to any `self` field — so its state-passing rendering returns
the state it was given. -/
def get_legal_moves_method (s : GameState) (player : Player) :
    List Move × GameState :=
  (get_legal_moves s.board player, s)

/-- C10: `get_legal_moves` is a pure query: the state after the call has the
same board grid, current player, game-over flag, winner and move history as
the state before it, for every state and either player. -/
theorem get_legal_moves_method_pure (s : GameState) (p : Player) :
    (∀ i j : ℤ, (get_legal_moves_method s p).2.board i j = s.board i j) ∧
    (get_legal_moves_method s p).2.current_player = s.current_player ∧
    (get_legal_moves_method s p).2.game_over = s.game_over ∧
    (get_legal_moves_method s p).2.winner = s.winner ∧
    (get_legal_moves_method s p).2.move_history = s.move_history :=
  ⟨fun _ _ => rfl, rfl, rfl, rfl, rfl⟩

/-- C2: `make_move` returns `False` with the state unchanged whenever the
state is already terminal or the move is not in the current side's
legal-move set, and every `False`-returning call leaves the state unchanged
(so only the `True` path mutates). -/
theorem make_move_rejects (s : GameState) (m : Move) :
    ((s.game_over = true ∨ m ∉ get_legal_moves s.board s.current_player) →
      make_move s m = (false, s)) ∧
    ((make_move s m).1 = false → (make_move s m).2 = s) := by
  constructor
  · intro h
    rcases h with h | h
    · simp [make_move, h]
    · unfold make_move
      rcases hg : s.game_over with _ | _
      · simp [h]
      · simp
  · intro h
    rcases m with ⟨x1, y1, x2, y2⟩
    unfold make_move at h ⊢
    rcases hg : s.game_over with _ | _
    · simp only [hg] at h ⊢
      by_cases hm : (x1, y1, x2, y2) ∈ get_legal_moves s.board s.current_player
      · simp [hm] at h
      · simp [hm]
    · simp [hg]

/-- Witness for C2: from the freshly initialized game, the move
`(0, 0, 0, 1)` (Black's chariot square — not a Red move) is rejected and the
state is returned unchanged. -/
theorem make_move_rejects_witness :
    make_move initGame (0, 0, 0, 1) = (false, initGame) :=
  (make_move_rejects initGame (0, 0, 0, 1)).1 (Or.inr (by decide))

end Xiangqi

namespace Xiangqi

/-- In-bounds predicate for a cell, matching the source's bounds tests. -/
def cellOk (nx ny : ℤ) : Prop :=
  0 ≤ nx ∧ nx < 10 ∧ 0 ≤ ny ∧ ny < 9

instance (nx ny : ℤ) : Decidable (cellOk nx ny) := by
  unfold cellOk
  infer_instance

/-- Membership in one chariot ray scan, characterized: a destination is
generated at step `t` exactly when it is on the board, all scanned cells
strictly before it are on the board and empty, and it is itself empty or
holds an enemy piece. -/
theorem mem_chariotGo (b : Board) (x y dx dy sign nx ny : ℤ) :
    ∀ (n s : ℕ),
    ((x, y, nx, ny) ∈ chariotGo b x y dx dy sign (List.range' s n) ↔
      ∃ t : ℕ, s ≤ t ∧ t < s + n ∧
        nx = x + dx * (t : ℤ) ∧ ny = y + dy * (t : ℤ) ∧
        cellOk nx ny ∧
        (∀ u : ℕ, s ≤ u → u < t →
          cellOk (x + dx * (u : ℤ)) (y + dy * (u : ℤ)) ∧
          b (x + dx * (u : ℤ)) (y + dy * (u : ℤ)) = 0) ∧
        (b nx ny = 0 ∨ b nx ny * sign < 0)) := by
  intro n
  induction n with
  | zero =>
    intro s
    simp [chariotGo]
    intro t hst htn
    omega
  | succ n ih =>
    intro s
    have hrange : List.range' s (n + 1) = s :: List.range' (s + 1) n := by
      simp [List.range'_succ]
    rw [hrange]
    by_cases hb : cellOk (x + dx * (s : ℤ)) (y + dy * (s : ℤ))
    · by_cases hz : b (x + dx * (s : ℤ)) (y + dy * (s : ℤ)) = 0
      · have hstep : chariotGo b x y dx dy sign (s :: List.range' (s + 1) n) =
            (x, y, x + dx * (s : ℤ), y + dy * (s : ℤ)) ::
              chariotGo b x y dx dy sign (List.range' (s + 1) n) := by
          simp [chariotGo, cellOk] at hb ⊢
          simp [hb, hb.1, hb.2.1, hb.2.2.1, hb.2.2.2, hz]
        rw [hstep]
        constructor
        · intro h
          rcases List.mem_cons.1 h with h | h
          · refine ⟨s, le_rfl, by omega, ?_, ?_, ?_, ?_, ?_⟩
            · exact congrArg (fun q => q.2.2.1) h
            · exact congrArg (fun q => q.2.2.2) h
            · have h1 : nx = x + dx * (s : ℤ) := congrArg (fun q => q.2.2.1) h
              have h2 : ny = y + dy * (s : ℤ) := congrArg (fun q => q.2.2.2) h
              rw [h1, h2]; exact hb
            · intro u hu1 hu2; omega
            · have h1 : nx = x + dx * (s : ℤ) := congrArg (fun q => q.2.2.1) h
              have h2 : ny = y + dy * (s : ℤ) := congrArg (fun q => q.2.2.2) h
              rw [h1, h2]; exact Or.inl hz
          · rcases (ih (s + 1)).1 h with ⟨t, ht1, ht2, h3, h4, h5, h6, h7⟩
            refine ⟨t, by omega, by omega, h3, h4, h5, ?_, h7⟩
            intro u hu1 hu2
            rcases Nat.eq_or_lt_of_le hu1 with rfl | hu
            · exact ⟨hb, hz⟩
            · exact h6 u (by omega) hu2
        · rintro ⟨t, ht1, ht2, h3, h4, h5, h6, h7⟩
          rcases Nat.eq_or_lt_of_le ht1 with rfl | ht
          · exact List.mem_cons.2 (Or.inl (by rw [h3, h4]))
          · refine List.mem_cons.2 (Or.inr ((ih (s + 1)).2 ?_))
            exact ⟨t, by omega, by omega, h3, h4, h5,
              fun u hu1 hu2 => h6 u (by omega) hu2, h7⟩
      · by_cases he : b (x + dx * (s : ℤ)) (y + dy * (s : ℤ)) * sign < 0
        · have hstep : chariotGo b x y dx dy sign (s :: List.range' (s + 1) n) =
              [(x, y, x + dx * (s : ℤ), y + dy * (s : ℤ))] := by
            simp [chariotGo, cellOk] at hb ⊢
            simp [hb, hb.1, hb.2.1, hb.2.2.1, hb.2.2.2, hz, he]
          rw [hstep]
          constructor
          · intro h
            have h' := List.mem_singleton.1 h
            have h1 : nx = x + dx * (s : ℤ) := congrArg (fun q => q.2.2.1) h'
            have h2 : ny = y + dy * (s : ℤ) := congrArg (fun q => q.2.2.2) h'
            refine ⟨s, le_rfl, by omega, h1, h2, by rw [h1, h2]; exact hb,
              fun u hu1 hu2 => by omega, by rw [h1, h2]; exact Or.inr he⟩
          · rintro ⟨t, ht1, ht2, h3, h4, h5, h6, h7⟩
            rcases Nat.eq_or_lt_of_le ht1 with rfl | ht
            · exact List.mem_singleton.2 (by rw [h3, h4])
            · exact absurd (h6 s le_rfl ht).2 hz
        · have hstep : chariotGo b x y dx dy sign (s :: List.range' (s + 1) n) =
              [] := by
            simp [chariotGo, cellOk] at hb ⊢
            simp [hb, hb.1, hb.2.1, hb.2.2.1, hb.2.2.2, hz, he]
          rw [hstep]
          simp only [List.not_mem_nil, false_iff]
          rintro ⟨t, ht1, ht2, h3, h4, h5, h6, h7⟩
          rcases Nat.eq_or_lt_of_le ht1 with rfl | ht
          · rw [h3, h4] at h7
            rcases h7 with h7 | h7
            · exact hz h7
            · exact he h7
          · exact hz (h6 s le_rfl ht).2
    · have hstep : chariotGo b x y dx dy sign (s :: List.range' (s + 1) n) =
          [] := by
        simp [chariotGo, cellOk] at hb ⊢
        intro h1 h2 h3
        omega
      rw [hstep]
      simp only [List.not_mem_nil, false_iff]
      rintro ⟨t, ht1, ht2, h3, h4, h5, h6, h7⟩
      rcases Nat.eq_or_lt_of_le ht1 with rfl | ht
      · rw [h3, h4] at h5
        exact hb h5
      · exact hb (h6 s le_rfl ht).1

end Xiangqi

namespace Xiangqi

/-- Membership in the cannon scan after the screen has been jumped: the only
destination generated is the first occupied cell of the remaining scan, and
only when it holds an enemy piece. -/
theorem mem_cannonGo_true (b : Board) (x y dx dy sign nx ny : ℤ) :
    ∀ (n s : ℕ),
    ((x, y, nx, ny) ∈ cannonGo b x y dx dy sign true (List.range' s n) ↔
      ∃ t : ℕ, s ≤ t ∧ t < s + n ∧
        nx = x + dx * (t : ℤ) ∧ ny = y + dy * (t : ℤ) ∧
        cellOk nx ny ∧
        (∀ u : ℕ, s ≤ u → u < t →
          cellOk (x + dx * (u : ℤ)) (y + dy * (u : ℤ)) ∧
          b (x + dx * (u : ℤ)) (y + dy * (u : ℤ)) = 0) ∧
        b nx ny ≠ 0 ∧ b nx ny * sign < 0) := by
  intro n
  induction n with
  | zero =>
    intro s
    simp [cannonGo]
    intro t hst htn
    omega
  | succ n ih =>
    intro s
    have hrange : List.range' s (n + 1) = s :: List.range' (s + 1) n := by
      simp [List.range'_succ]
    rw [hrange]
    by_cases hb : cellOk (x + dx * (s : ℤ)) (y + dy * (s : ℤ))
    · by_cases hz : b (x + dx * (s : ℤ)) (y + dy * (s : ℤ)) = 0
      · have hstep : cannonGo b x y dx dy sign true (s :: List.range' (s + 1) n) =
            cannonGo b x y dx dy sign true (List.range' (s + 1) n) := by
          simp [cannonGo, cellOk] at hb ⊢
          simp [hb.1, hb.2.1, hb.2.2.1, hb.2.2.2, hz]
        rw [hstep, ih (s + 1)]
        constructor
        · rintro ⟨t, ht1, ht2, h3, h4, h5, h6, h7⟩
          refine ⟨t, by omega, by omega, h3, h4, h5, ?_, h7⟩
          intro u hu1 hu2
          rcases Nat.eq_or_lt_of_le hu1 with rfl | hu
          · exact ⟨hb, hz⟩
          · exact h6 u (by omega) hu2
        · rintro ⟨t, ht1, ht2, h3, h4, h5, h6, h7⟩
          rcases Nat.eq_or_lt_of_le ht1 with rfl | ht
          · rw [h3, h4] at h7
            exact absurd hz h7.1
          · exact ⟨t, by omega, by omega, h3, h4, h5,
              fun u hu1 hu2 => h6 u (by omega) hu2, h7⟩
      · by_cases he : b (x + dx * (s : ℤ)) (y + dy * (s : ℤ)) * sign < 0
        · have hstep : cannonGo b x y dx dy sign true (s :: List.range' (s + 1) n) =
              [(x, y, x + dx * (s : ℤ), y + dy * (s : ℤ))] := by
            simp [cannonGo, cellOk] at hb ⊢
            simp [hb.1, hb.2.1, hb.2.2.1, hb.2.2.2, hz, he]
          rw [hstep]
          constructor
          · intro h
            have h' := List.mem_singleton.1 h
            have h1 : nx = x + dx * (s : ℤ) := congrArg (fun q => q.2.2.1) h'
            have h2 : ny = y + dy * (s : ℤ) := congrArg (fun q => q.2.2.2) h'
            exact ⟨s, le_rfl, by omega, h1, h2, by rw [h1, h2]; exact hb,
              fun u hu1 hu2 => by omega, by rw [h1, h2]; exact hz,
              by rw [h1, h2]; exact he⟩
          · rintro ⟨t, ht1, ht2, h3, h4, h5, h6, h7, h8⟩
            rcases Nat.eq_or_lt_of_le ht1 with rfl | ht
            · exact List.mem_singleton.2 (by rw [h3, h4])
            · exact absurd (h6 s le_rfl ht).2 hz
        · have hstep : cannonGo b x y dx dy sign true (s :: List.range' (s + 1) n) =
              [] := by
            simp [cannonGo, cellOk] at hb ⊢
            simp [hb.1, hb.2.1, hb.2.2.1, hb.2.2.2, hz, he]
          rw [hstep]
          simp only [List.not_mem_nil, false_iff]
          rintro ⟨t, ht1, ht2, h3, h4, h5, h6, h7, h8⟩
          rcases Nat.eq_or_lt_of_le ht1 with rfl | ht
          · rw [h3, h4] at h8
            exact he h8
          · exact hz (h6 s le_rfl ht).2
    · have hstep : cannonGo b x y dx dy sign true (s :: List.range' (s + 1) n) =
          [] := by
        simp [cannonGo, cellOk] at hb ⊢
        intro h1 h2 h3
        omega
      rw [hstep]
      simp only [List.not_mem_nil, false_iff]
      rintro ⟨t, ht1, ht2, h3, h4, h5, h6, h7, h8⟩
      rcases Nat.eq_or_lt_of_le ht1 with rfl | ht
      · rw [h3, h4] at h5
        exact hb h5
      · exact hb (h6 s le_rfl ht).1

end Xiangqi

namespace Xiangqi

/-- Membership in the full cannon scan along one direction (starting without
a jump): a destination is generated exactly when it is on the board and
either (a) it is empty and every scanned cell strictly before it is on the
board and empty (a non-capturing slide short of the screen), or (b) it holds
an enemy piece and exactly one scanned cell strictly before it is occupied
(the screen), all others being on the board and empty. -/
theorem mem_cannonGo_false (b : Board) (x y dx dy sign nx ny : ℤ) :
    ∀ (n s : ℕ),
    ((x, y, nx, ny) ∈ cannonGo b x y dx dy sign false (List.range' s n) ↔
      ∃ t : ℕ, s ≤ t ∧ t < s + n ∧
        nx = x + dx * (t : ℤ) ∧ ny = y + dy * (t : ℤ) ∧
        cellOk nx ny ∧
        ((b nx ny = 0 ∧
           ∀ u : ℕ, s ≤ u → u < t →
             cellOk (x + dx * (u : ℤ)) (y + dy * (u : ℤ)) ∧
             b (x + dx * (u : ℤ)) (y + dy * (u : ℤ)) = 0) ∨
         (b nx ny * sign < 0 ∧
           ∃ j : ℕ, s ≤ j ∧ j < t ∧
             cellOk (x + dx * (j : ℤ)) (y + dy * (j : ℤ)) ∧
             b (x + dx * (j : ℤ)) (y + dy * (j : ℤ)) ≠ 0 ∧
             ∀ u : ℕ, s ≤ u → u < t → u ≠ j →
               cellOk (x + dx * (u : ℤ)) (y + dy * (u : ℤ)) ∧
               b (x + dx * (u : ℤ)) (y + dy * (u : ℤ)) = 0))) := by
  intro n
  induction n with
  | zero =>
    intro s
    simp [cannonGo]
    intro t hst htn
    omega
  | succ n ih =>
    intro s
    have hrange : List.range' s (n + 1) = s :: List.range' (s + 1) n := by
      simp [List.range'_succ]
    rw [hrange]
    by_cases hb : cellOk (x + dx * (s : ℤ)) (y + dy * (s : ℤ))
    · by_cases hz : b (x + dx * (s : ℤ)) (y + dy * (s : ℤ)) = 0
      · have hstep : cannonGo b x y dx dy sign false (s :: List.range' (s + 1) n) =
            (x, y, x + dx * (s : ℤ), y + dy * (s : ℤ)) ::
              cannonGo b x y dx dy sign false (List.range' (s + 1) n) := by
          simp [cannonGo, cellOk] at hb ⊢
          simp [hb.1, hb.2.1, hb.2.2.1, hb.2.2.2, hz]
        rw [hstep]
        constructor
        · intro h
          rcases List.mem_cons.1 h with h | h
          · have h1 : nx = x + dx * (s : ℤ) := congrArg (fun q => q.2.2.1) h
            have h2 : ny = y + dy * (s : ℤ) := congrArg (fun q => q.2.2.2) h
            exact ⟨s, le_rfl, by omega, h1, h2, by rw [h1, h2]; exact hb,
              Or.inl ⟨by rw [h1, h2]; exact hz, fun u hu1 hu2 => by omega⟩⟩
          · rcases (ih (s + 1)).1 h with ⟨t, ht1, ht2, h3, h4, h5, hcase⟩
            refine ⟨t, by omega, by omega, h3, h4, h5, ?_⟩
            rcases hcase with ⟨hz', hall⟩ | ⟨he, j, hj1, hj2, hjok, hjnz, hrest⟩
            · refine Or.inl ⟨hz', fun u hu1 hu2 => ?_⟩
              rcases Nat.eq_or_lt_of_le hu1 with rfl | hu
              · exact ⟨hb, hz⟩
              · exact hall u (by omega) hu2
            · refine Or.inr ⟨he, j, by omega, hj2, hjok, hjnz,
                fun u hu1 hu2 hune => ?_⟩
              rcases Nat.eq_or_lt_of_le hu1 with rfl | hu
              · exact ⟨hb, hz⟩
              · exact hrest u (by omega) hu2 hune
        · rintro ⟨t, ht1, ht2, h3, h4, h5, hcase⟩
          rcases Nat.eq_or_lt_of_le ht1 with rfl | ht
          · rcases hcase with ⟨hz', hall⟩ | ⟨he, j, hj1, hj2, hjok, hjnz, hrest⟩
            · exact List.mem_cons.2 (Or.inl (by rw [h3, h4]))
            · omega
          · refine List.mem_cons.2 (Or.inr ((ih (s + 1)).2 ?_))
            rcases hcase with ⟨hz', hall⟩ | ⟨he, j, hj1, hj2, hjok, hjnz, hrest⟩
            · exact ⟨t, by omega, by omega, h3, h4, h5,
                Or.inl ⟨hz', fun u hu1 hu2 => hall u (by omega) hu2⟩⟩
            · have hjs : j ≠ s := by
                rintro rfl
                exact hjnz hz
              exact ⟨t, by omega, by omega, h3, h4, h5,
                Or.inr ⟨he, j, by omega, hj2, hjok, hjnz,
                  fun u hu1 hu2 hune => hrest u (by omega) hu2 hune⟩⟩
      · have hstep : cannonGo b x y dx dy sign false (s :: List.range' (s + 1) n) =
            cannonGo b x y dx dy sign true (List.range' (s + 1) n) := by
          simp [cannonGo, cellOk] at hb ⊢
          simp [hb.1, hb.2.1, hb.2.2.1, hb.2.2.2, hz]
        rw [hstep, mem_cannonGo_true b x y dx dy sign nx ny n (s + 1)]
        constructor
        · rintro ⟨t, ht1, ht2, h3, h4, h5, h6, h7, h8⟩
          refine ⟨t, by omega, by omega, h3, h4, h5,
            Or.inr ⟨h8, s, le_rfl, by omega, hb, hz, ?_⟩⟩
          intro u hu1 hu2 hune
          exact h6 u (by omega) hu2
        · rintro ⟨t, ht1, ht2, h3, h4, h5, hcase⟩
          rcases hcase with ⟨hz', hall⟩ | ⟨he, j, hj1, hj2, hjok, hjnz, hrest⟩
          · rcases Nat.eq_or_lt_of_le ht1 with rfl | ht
            · rw [h3, h4] at hz'
              exact absurd hz' hz
            · exact absurd (hall s le_rfl ht).2 hz
          · have hjs : j = s := by
              by_contra hne
              exact hz (hrest s le_rfl (by omega) (fun hc => hne hc.symm)).2
            subst hjs
            have hne0 : b nx ny ≠ 0 := by
              intro h0
              rw [h0] at he
              simp at he
            exact ⟨t, by omega, by omega, h3, h4, h5,
              fun u hu1 hu2 => hrest u (by omega) hu2 (by omega), hne0, he⟩
    · have hstep : cannonGo b x y dx dy sign false (s :: List.range' (s + 1) n) =
          [] := by
        simp [cannonGo, cellOk] at hb ⊢
        intro h1 h2 h3
        omega
      rw [hstep]
      simp only [List.not_mem_nil, false_iff]
      rintro ⟨t, ht1, ht2, h3, h4, h5, hcase⟩
      rcases Nat.eq_or_lt_of_le ht1 with rfl | ht
      · rw [h3, h4] at h5
        exact hb h5
      · rcases hcase with ⟨hz', hall⟩ | ⟨he, j, hj1, hj2, hjok, hjnz, hrest⟩
        · exact hb (hall s le_rfl ht).1
        · rcases Nat.eq_or_lt_of_le hj1 with rfl | hj
          · exact hb hjok
          · exact hb (hrest s le_rfl ht (by omega)).1

end Xiangqi

namespace Xiangqi

/-- Along any of the four orthogonal unit directions, if the source cell and
the cell at step `t` are on the board then every earlier step is on the
board, and `t` is at most 9 (so the source's `range(1, 10)` scan reaches
every on-board cell of the ray). -/
theorem dir_convex (d : ℤ × ℤ)
    (hd : d ∈ ([(0, 1), (1, 0), (0, -1), (-1, 0)] : List (ℤ × ℤ)))
    (x y : ℤ) (hx0 : 0 ≤ x) (hx1 : x < 10) (hy0 : 0 ≤ y) (hy1 : y < 9)
    (t : ℕ) (ht : cellOk (x + d.1 * (t : ℤ)) (y + d.2 * (t : ℤ))) :
    t ≤ 9 ∧ ∀ u : ℕ, u ≤ t → cellOk (x + d.1 * (u : ℤ)) (y + d.2 * (u : ℤ)) := by
  unfold cellOk at ht ⊢
  have hd' : d = (0, 1) ∨ d = (1, 0) ∨ d = (0, -1) ∨ d = (-1, 0) := by
    simpa using hd
  obtain rfl | rfl | rfl | rfl := hd' <;>
    (simp only [Prod.fst, Prod.snd] at ht ⊢
     refine ⟨by omega, fun u hu => ?_⟩
     omega)

/-- C4: for every board, every on-board chariot source square and either
side, a move is generated exactly when its destination lies on one of the
four orthogonal rays, every cell strictly between source and destination is
empty, and the destination is on the board and either empty or an enemy
piece (so the first occupied cell is reachable only as an enemy capture and
nothing beyond it is ever generated). -/
theorem chariot_ray_exact (b : Board) (x y : ℤ) (p : Player)
    (hx : 0 ≤ x ∧ x < 10) (hy : 0 ≤ y ∧ y < 9) (nx ny : ℤ) :
    ((x, y, nx, ny) ∈ chariot_moves b x y (signOf p) ↔
      ∃ d ∈ ([(0, 1), (1, 0), (0, -1), (-1, 0)] : List (ℤ × ℤ)),
        ∃ t : ℕ, 1 ≤ t ∧
          nx = x + d.1 * (t : ℤ) ∧ ny = y + d.2 * (t : ℤ) ∧
          cellOk nx ny ∧
          (∀ u : ℕ, 1 ≤ u → u < t →
            b (x + d.1 * (u : ℤ)) (y + d.2 * (u : ℤ)) = 0) ∧
          (b nx ny = 0 ∨ b nx ny * signOf p < 0)) := by
  unfold chariot_moves
  rw [List.mem_flatMap]
  constructor
  · rintro ⟨d, hd, hmem⟩
    rcases (mem_chariotGo b x y d.1 d.2 (signOf p) nx ny 9 1).1 hmem with
      ⟨t, ht1, ht2, h3, h4, h5, h6, h7⟩
    exact ⟨d, hd, t, ht1, h3, h4, h5, fun u hu1 hu2 => (h6 u hu1 hu2).2, h7⟩
  · rintro ⟨d, hd, t, ht1, h3, h4, h5, h6, h7⟩
    have hc := dir_convex d hd x y hx.1 hx.2 hy.1 hy.2 t
      (by rw [← h3, ← h4]; exact h5)
    refine ⟨d, hd, (mem_chariotGo b x y d.1 d.2 (signOf p) nx ny 9 1).2
      ⟨t, ht1, by omega, h3, h4, h5, ?_, h7⟩⟩
    intro u hu1 hu2
    exact ⟨hc.2 u (by omega), h6 u hu1 hu2⟩

/-- C3: for every board, every on-board cannon source square and either
side, a move is generated exactly when its destination lies on one of the
four orthogonal rays and either (a) the destination is empty and every cell
strictly between is empty (a non-capturing slide strictly before the
screen), or (b) the destination holds an enemy piece and exactly one cell
strictly between is occupied (the single screen); in particular no capture
happens without exactly one intervening piece and nothing beyond the first
occupied cell after the screen is generated. -/
theorem cannon_ray_exact (b : Board) (x y : ℤ) (p : Player)
    (hx : 0 ≤ x ∧ x < 10) (hy : 0 ≤ y ∧ y < 9) (nx ny : ℤ) :
    ((x, y, nx, ny) ∈ cannon_moves b x y (signOf p) ↔
      ∃ d ∈ ([(0, 1), (1, 0), (0, -1), (-1, 0)] : List (ℤ × ℤ)),
        ∃ t : ℕ, 1 ≤ t ∧
          nx = x + d.1 * (t : ℤ) ∧ ny = y + d.2 * (t : ℤ) ∧
          cellOk nx ny ∧
          ((b nx ny = 0 ∧
             ∀ u : ℕ, 1 ≤ u → u < t →
               b (x + d.1 * (u : ℤ)) (y + d.2 * (u : ℤ)) = 0) ∨
           (b nx ny * signOf p < 0 ∧
             ∃ j : ℕ, 1 ≤ j ∧ j < t ∧
               b (x + d.1 * (j : ℤ)) (y + d.2 * (j : ℤ)) ≠ 0 ∧
               ∀ u : ℕ, 1 ≤ u → u < t → u ≠ j →
                 b (x + d.1 * (u : ℤ)) (y + d.2 * (u : ℤ)) = 0))) := by
  unfold cannon_moves
  rw [List.mem_flatMap]
  constructor
  · rintro ⟨d, hd, hmem⟩
    rcases (mem_cannonGo_false b x y d.1 d.2 (signOf p) nx ny 9 1).1 hmem with
      ⟨t, ht1, ht2, h3, h4, h5, hcase⟩
    refine ⟨d, hd, t, ht1, h3, h4, h5, ?_⟩
    rcases hcase with ⟨hz, hall⟩ | ⟨he, j, hj1, hj2, hjok, hjnz, hrest⟩
    · exact Or.inl ⟨hz, fun u hu1 hu2 => (hall u hu1 hu2).2⟩
    · exact Or.inr ⟨he, j, hj1, hj2, hjnz,
        fun u hu1 hu2 hune => (hrest u hu1 hu2 hune).2⟩
  · rintro ⟨d, hd, t, ht1, h3, h4, h5, hcase⟩
    have hc := dir_convex d hd x y hx.1 hx.2 hy.1 hy.2 t
      (by rw [← h3, ← h4]; exact h5)
    refine ⟨d, hd, (mem_cannonGo_false b x y d.1 d.2 (signOf p) nx ny 9 1).2
      ⟨t, ht1, by omega, h3, h4, h5, ?_⟩⟩
    rcases hcase with ⟨hz, hall⟩ | ⟨he, j, hj1, hj2, hjnz, hrest⟩
    · exact Or.inl ⟨hz, fun u hu1 hu2 =>
        ⟨hc.2 u (by omega), hall u hu1 hu2⟩⟩
    · exact Or.inr ⟨he, j, hj1, hj2, hc.2 j (by omega), hjnz,
        fun u hu1 hu2 hune => ⟨hc.2 u (by omega), hrest u hu1 hu2 hune⟩⟩

end Xiangqi

namespace Xiangqi

/-- Witness for C4: the chariot ray characterization instantiated at Red's
chariot square (9,0) of the starting board. -/
theorem chariot_ray_exact_witness :
    ((9, 0, (8 : ℤ), (0 : ℤ)) ∈ chariot_moves init_board 9 0 (signOf Player.red) ↔
      ∃ d ∈ ([(0, 1), (1, 0), (0, -1), (-1, 0)] : List (ℤ × ℤ)),
        ∃ t : ℕ, 1 ≤ t ∧
          (8 : ℤ) = 9 + d.1 * (t : ℤ) ∧ (0 : ℤ) = 0 + d.2 * (t : ℤ) ∧
          cellOk 8 0 ∧
          (∀ u : ℕ, 1 ≤ u → u < t →
            init_board (9 + d.1 * (u : ℤ)) (0 + d.2 * (u : ℤ)) = 0) ∧
          (init_board 8 0 = 0 ∨ init_board 8 0 * signOf Player.red < 0)) :=
  chariot_ray_exact init_board 9 0 Player.red (by decide) (by decide) 8 0

/-- Witness for C3: the cannon ray characterization instantiated at Red's
cannon square (7,1) of the starting board. -/
theorem cannon_ray_exact_witness :
    ((7, 1, (7 : ℤ), (0 : ℤ)) ∈ cannon_moves init_board 7 1 (signOf Player.red) ↔
      ∃ d ∈ ([(0, 1), (1, 0), (0, -1), (-1, 0)] : List (ℤ × ℤ)),
        ∃ t : ℕ, 1 ≤ t ∧
          (7 : ℤ) = 7 + d.1 * (t : ℤ) ∧ (0 : ℤ) = 1 + d.2 * (t : ℤ) ∧
          cellOk 7 0 ∧
          ((init_board 7 0 = 0 ∧
             ∀ u : ℕ, 1 ≤ u → u < t →
               init_board (7 + d.1 * (u : ℤ)) (1 + d.2 * (u : ℤ)) = 0) ∨
           (init_board 7 0 * signOf Player.red < 0 ∧
             ∃ j : ℕ, 1 ≤ j ∧ j < t ∧
               init_board (7 + d.1 * (j : ℤ)) (1 + d.2 * (j : ℤ)) ≠ 0 ∧
               ∀ u : ℕ, 1 ≤ u → u < t → u ≠ j →
                 init_board (7 + d.1 * (u : ℤ)) (1 + d.2 * (u : ℤ)) = 0))) :=
  cannon_ray_exact init_board 7 1 Player.red (by decide) (by decide) 7 0

end Xiangqi

namespace Xiangqi

/-- Shape facts shared by every move a piece generator returns from square
`(x, y)`: the source is `(x, y)`, the destination is on the board, is not an
own piece, and differs from the source. -/
def MoveOk (b : Board) (sign x y : ℤ) (m : Move) : Prop :=
  ∃ nx ny : ℤ, m = (x, y, nx, ny) ∧ cellOk nx ny ∧
    b nx ny * sign ≤ 0 ∧ ¬(nx = x ∧ ny = y)

/-- The palace test alone implies the board bounds (C9's parenthetical). -/
theorem palace_bounds (x y sign : ℤ) (h : is_in_palace x y sign = true) :
    cellOk x y := by
  unfold is_in_palace at h
  unfold cellOk
  by_cases hs : sign = 1 <;> simp [hs] at h <;> omega

theorem general_moves_ok (b : Board) (x y sign : ℤ) (m : Move)
    (h : m ∈ general_moves b x y sign) : MoveOk b sign x y m := by
  simp only [general_moves, List.mem_filterMap, Option.ite_none_right_eq_some,
    Option.some.injEq] at h
  rcases h with ⟨d, hd, ⟨hpal, hle⟩, hm⟩
  have hd' : d = (0, 1) ∨ d = (1, 0) ∨ d = (0, -1) ∨ d = (-1, 0) := by
    simpa using hd
  refine ⟨x + d.1, y + d.2, hm.symm, palace_bounds _ _ _ hpal, hle, ?_⟩
  obtain rfl | rfl | rfl | rfl := hd' <;> simp

theorem advisor_moves_ok (b : Board) (x y sign : ℤ) (m : Move)
    (h : m ∈ advisor_moves b x y sign) : MoveOk b sign x y m := by
  simp only [advisor_moves, List.mem_filterMap, Option.ite_none_right_eq_some,
    Option.some.injEq] at h
  rcases h with ⟨d, hd, ⟨hpal, hle⟩, hm⟩
  have hd' : d = (1, 1) ∨ d = (1, -1) ∨ d = (-1, 1) ∨ d = (-1, -1) := by
    simpa using hd
  refine ⟨x + d.1, y + d.2, hm.symm, palace_bounds _ _ _ hpal, hle, ?_⟩
  obtain rfl | rfl | rfl | rfl := hd' <;> simp

theorem elephant_moves_ok (b : Board) (x y sign : ℤ) (m : Move)
    (h : m ∈ elephant_moves b x y sign) : MoveOk b sign x y m := by
  simp only [elephant_moves, List.mem_filterMap, Option.ite_none_right_eq_some,
    Option.some.injEq] at h
  rcases h with ⟨d, hd, hbnd, hterr, ⟨hb1, hb2, hb3, hb4, hbz, hle⟩, hm⟩
  have hd' : d = (2, 2) ∨ d = (2, -2) ∨ d = (-2, 2) ∨ d = (-2, -2) := by
    simpa using hd
  refine ⟨x + d.1, y + d.2, hm.symm, hbnd, hle, ?_⟩
  obtain rfl | rfl | rfl | rfl := hd' <;> simp

theorem horse_moves_ok (b : Board) (x y sign : ℤ) (m : Move)
    (h : m ∈ horse_moves b x y sign) : MoveOk b sign x y m := by
  simp only [horse_moves, List.mem_filterMap, Option.ite_none_right_eq_some,
    Option.some.injEq] at h
  rcases h with ⟨d, hd, hbnd, ⟨hb1, hb2, hb3, hb4, hbz, hle⟩, hm⟩
  have hd' : d = (1, 2) ∨ d = (2, 1) ∨ d = (1, -2) ∨ d = (2, -1) ∨
      d = (-1, 2) ∨ d = (-2, 1) ∨ d = (-1, -2) ∨ d = (-2, -1) := by
    simpa using hd
  refine ⟨x + d.1, y + d.2, hm.symm, hbnd, hle, ?_⟩
  obtain rfl | rfl | rfl | rfl | rfl | rfl | rfl | rfl := hd' <;>
    simp

theorem soldier_moves_ok (b : Board) (x y sign : ℤ) (m : Move)
    (h : m ∈ soldier_moves b x y sign) : MoveOk b sign x y m := by
  simp only [soldier_moves, List.mem_filterMap, Option.ite_none_right_eq_some,
    Option.some.injEq] at h
  rcases h with ⟨d, hd, hbnd, hle, hm⟩
  have hd' : d = (1, 0) ∨ d = (-1, 0) ∨ d = (0, 1) ∨ d = (0, -1) := by
    split_ifs at hd <;> simp at hd <;> tauto
  refine ⟨x + d.1, y + d.2, hm.symm, hbnd, hle, ?_⟩
  obtain rfl | rfl | rfl | rfl := hd' <;> simp

/-- Every member of a chariot ray scan has the scanned square as source. -/
theorem chariotGo_src (b : Board) (x y dx dy sign : ℤ) :
    ∀ (l : List ℕ) (m : Move), m ∈ chariotGo b x y dx dy sign l →
      ∃ nx ny : ℤ, m = (x, y, nx, ny) := by
  intro l
  induction l with
  | nil => intro m h; cases h
  | cons step rest ih =>
    intro m h
    simp only [chariotGo] at h
    split_ifs at h with h1 h2 h3
    all_goals first
      | exact absurd h (List.not_mem_nil _)
      | exact ⟨_, _, List.mem_singleton.1 h⟩
      | (rcases List.mem_cons.1 h with rfl | h
         exacts [⟨_, _, rfl⟩, ih m h])

/-- Every member of a cannon ray scan has the scanned square as source. -/
theorem cannonGo_src (b : Board) (x y dx dy sign : ℤ) :
    ∀ (l : List ℕ) (j : Bool) (m : Move), m ∈ cannonGo b x y dx dy sign j l →
      ∃ nx ny : ℤ, m = (x, y, nx, ny) := by
  intro l
  induction l with
  | nil => intro j m h; cases h
  | cons step rest ih =>
    intro j m h
    simp only [cannonGo] at h
    split_ifs at h with h1 h2 h3 h4 h5
    all_goals first
      | exact absurd h (List.not_mem_nil _)
      | exact ⟨_, _, List.mem_singleton.1 h⟩
      | exact ih true m h
      | exact ih false m h
      | (rcases List.mem_cons.1 h with rfl | h
         exacts [⟨_, _, rfl⟩, ih false m h])

end Xiangqi

namespace Xiangqi

theorem chariot_moves_ok (b : Board) (x y sign : ℤ) (m : Move)
    (h : m ∈ chariot_moves b x y sign) : MoveOk b sign x y m := by
  unfold chariot_moves at h
  rw [List.mem_flatMap] at h
  rcases h with ⟨d, hd, hmem⟩
  obtain ⟨nx, ny, rfl⟩ := chariotGo_src b x y d.1 d.2 sign _ m hmem
  rcases (mem_chariotGo b x y d.1 d.2 sign nx ny 9 1).1 hmem with
    ⟨t, ht1, ht2, h3, h4, h5, h6, h7⟩
  have hd' : d = (0, 1) ∨ d = (1, 0) ∨ d = (0, -1) ∨ d = (-1, 0) := by
    simpa using hd
  refine ⟨nx, ny, rfl, h5, ?_, ?_⟩
  · rcases h7 with h7 | h7
    · rw [h7]; simp
    · exact le_of_lt h7
  · obtain rfl | rfl | rfl | rfl := hd' <;>
      (simp only [Prod.fst, Prod.snd] at h3 h4
       rintro ⟨e1, e2⟩
       omega)

theorem cannon_moves_ok (b : Board) (x y sign : ℤ) (m : Move)
    (h : m ∈ cannon_moves b x y sign) : MoveOk b sign x y m := by
  unfold cannon_moves at h
  rw [List.mem_flatMap] at h
  rcases h with ⟨d, hd, hmem⟩
  obtain ⟨nx, ny, rfl⟩ := cannonGo_src b x y d.1 d.2 sign _ false m hmem
  rcases (mem_cannonGo_false b x y d.1 d.2 sign nx ny 9 1).1 hmem with
    ⟨t, ht1, ht2, h3, h4, h5, hcase⟩
  have hd' : d = (0, 1) ∨ d = (1, 0) ∨ d = (0, -1) ∨ d = (-1, 0) := by
    simpa using hd
  refine ⟨nx, ny, rfl, h5, ?_, ?_⟩
  · rcases hcase with ⟨hz, _⟩ | ⟨he, _⟩
    · rw [hz]; simp
    · exact le_of_lt he
  · obtain rfl | rfl | rfl | rfl := hd' <;>
      (simp only [Prod.fst, Prod.snd] at h3 h4
       rintro ⟨e1, e2⟩
       omega)

theorem get_piece_moves_ok (b : Board) (x y : ℤ) (pt : ℕ) (sign : ℤ)
    (m : Move) (h : m ∈ get_piece_moves b x y pt sign) :
    MoveOk b sign x y m := by
  unfold get_piece_moves at h
  split_ifs at h
  · exact general_moves_ok b x y sign m h
  · exact advisor_moves_ok b x y sign m h
  · exact elephant_moves_ok b x y sign m h
  · exact horse_moves_ok b x y sign m h
  · exact chariot_moves_ok b x y sign m h
  · exact cannon_moves_ok b x y sign m h
  · exact soldier_moves_ok b x y sign m h
  · exact absurd h (List.not_mem_nil _)

/-- Every legal move comes from an on-board source square holding a piece of
the moving side, and satisfies the common shape facts. -/
theorem get_legal_moves_shape (b : Board) (p : Player) (m : Move)
    (h : m ∈ get_legal_moves b p) :
    ∃ x y : ℤ, cellOk x y ∧ b x y * signOf p > 0 ∧
      MoveOk b (signOf p) x y m := by
  simp only [get_legal_moves, List.mem_flatMap, List.mem_range] at h
  rcases h with ⟨i, hi, j, hj, h⟩
  by_cases hp : b (i : ℤ) (j : ℤ) * signOf p > 0
  · rw [if_pos hp] at h
    exact ⟨(i : ℤ), (j : ℤ), by unfold cellOk; omega, hp,
      get_piece_moves_ok b (i : ℤ) (j : ℤ) _ (signOf p) m h⟩
  · rw [if_neg hp] at h
    exact absurd h (List.not_mem_nil _)

/-- C5: for every board and either side, no legal move's destination holds a
piece of the moving side. -/
theorem legal_moves_no_own_capture (b : Board) (p : Player) (m : Move)
    (h : m ∈ get_legal_moves b p) :
    ¬ b m.2.2.1 m.2.2.2 * signOf p > 0 := by
  rcases get_legal_moves_shape b p m h with
    ⟨x, y, _, _, nx, ny, rfl, _, hle, _⟩
  exact not_lt.mpr hle

/-- Witness for C5: the opening soldier push (6,0)→(5,0) of the starting
board lands on an empty cell, not a Red piece. -/
theorem legal_moves_no_own_capture_witness :
    ¬ init_board (5 : ℤ) (0 : ℤ) * signOf Player.red > 0 :=
  legal_moves_no_own_capture init_board Player.red (6, 0, 5, 0) (by decide)

/-- C9: every legal move's source and destination are on the board
(`0 ≤ row < 10`, `0 ≤ col < 9`), and the palace predicate alone implies
those bounds (so General/Advisor accesses guarded only by it stay
in-bounds). -/
theorem legal_moves_in_bounds (b : Board) (p : Player) (m : Move)
    (h : m ∈ get_legal_moves b p) :
    (cellOk m.1 m.2.1 ∧ cellOk m.2.2.1 m.2.2.2) ∧
    (∀ x y sign : ℤ, is_in_palace x y sign = true → cellOk x y) := by
  refine ⟨?_, fun x y sign hp => palace_bounds x y sign hp⟩
  rcases get_legal_moves_shape b p m h with
    ⟨x, y, hcell, _, nx, ny, rfl, hok, _, _⟩
  exact ⟨hcell, hok⟩

/-- Witness for C9: applied to the opening soldier push of the starting
board. -/
theorem legal_moves_in_bounds_witness :
    ((cellOk 6 0 ∧ cellOk 5 0) ∧
    (∀ x y sign : ℤ, is_in_palace x y sign = true → cellOk x y)) :=
  legal_moves_in_bounds init_board Player.red (6, 0, 5, 0) (by decide)

end Xiangqi

namespace Xiangqi

theorem setCell_same (b : Board) (x y v : ℤ) : setCell b x y v x y = v := by
  unfold setCell
  simp

theorem setCell_other (b : Board) (x y v i j : ℤ) (h : ¬(i = x ∧ j = y)) :
    setCell b x y v i j = b i j := by
  unfold setCell
  rw [if_neg h]

theorem board_any_iff (b : Board) (v : ℤ) :
    board_any b v = true ↔
      ∃ i : ℕ, i < 10 ∧ ∃ j : ℕ, j < 9 ∧ b (i : ℤ) (j : ℤ) = v := by
  unfold board_any
  simp [List.any_eq_true, List.mem_range]

theorem check_game_over_board (s : GameState) :
    (check_game_over s).board = s.board := by
  unfold check_game_over
  split_ifs <;> rfl

/-- Board exhibiting the horse "leg" divergence, first scenario: a Red horse
on (5,4) and a Red chariot on (4,5) — the cell the code's floor-divided
block test reads for the offset (-1,2); the orthogonal leg cell (5,5) from
the claim is empty. -/
def horse_bug_board_a : Board := fun i j =>
  if i = 5 ∧ j = 4 then 4 else if i = 4 ∧ j = 5 then 5 else 0

/-- Board for the second scenario: the claim's orthogonal leg cell (5,5) is
occupied by a Red chariot while the code's block cell (4,5) is empty. -/
def horse_bug_board_b : Board := fun i j =>
  if i = 5 ∧ j = 4 then 4 else if i = 5 ∧ j = 5 then 5 else 0

/-- C1 (code bug): for the horse offset (-1,2) from (5,4), the leg cell
"half the offset truncated toward zero" is (5,5), but the code computes the
block cell with Python floor division, `5 + (-1 // 2) = 4` and
`4 + (2 // 2) = 5`, i.e. the diagonal cell (4,5). Scenario (a): the leg
cell (5,5) is empty and the destination (4,6) is on the board and empty,
yet the move (5,4)→(4,6) is NOT generated, because (4,5) is occupied.
Scenario (b): the leg cell (5,5) is occupied, yet the move IS generated,
because (4,5) is empty. Both directions of the claimed equivalence fail. -/
theorem horse_leg_floor_division_bug :
    (horse_bug_board_a 5 4 = 4 ∧ horse_bug_board_a 5 5 = 0 ∧
      cellOk 4 6 ∧ horse_bug_board_a 4 6 * signOf Player.red ≤ 0 ∧
      (5, 4, 4, 6) ∉ get_legal_moves horse_bug_board_a Player.red) ∧
    (horse_bug_board_b 5 4 = 4 ∧ horse_bug_board_b 5 5 = 5 ∧
      (5, 4, 4, 6) ∈ get_legal_moves horse_bug_board_b Player.red) := by
  decide

end Xiangqi

namespace Xiangqi

/-- Field-level description of `_check_game_over` on a not-yet-over state:
the board is untouched, the flag is set exactly when a General is missing,
and the winner is the opposite side of the missing General. -/
theorem check_game_over_spec (t : GameState) (hg : t.game_over = false) :
    (check_game_over t).board = t.board ∧
    ((check_game_over t).game_over = true ↔
      (board_any t.board 1 = false ∨ board_any t.board (-1) = false)) ∧
    (board_any t.board 1 = false →
      (check_game_over t).winner = some Player.black) ∧
    (¬ board_any t.board 1 = false → board_any t.board (-1) = false →
      (check_game_over t).winner = some Player.red) := by
  unfold check_game_over
  split_ifs with hA hB
  · refine ⟨rfl, ?_, fun _ => rfl, fun hnc _ => absurd hA hnc⟩
    simp [hA]
  · refine ⟨rfl, ?_, fun hc => absurd hc hA, fun _ _ => rfl⟩
    simp [hB]
  · refine ⟨rfl, ?_, fun hc => absurd hc hA, fun _ hc => absurd hc hB⟩
    constructor
    · intro h
      rw [hg] at h
      cases h
    · rintro (h | h)
      · exact absurd h hA
      · exact absurd h hB

/-- C6: after a successful `make_move` from a state where both Generals are
on the board, the state is terminal exactly when some General is now absent,
and the winner is the side whose General remains; no other condition (check,
checkmate, stalemate) sets the flag. -/
theorem general_capture_terminal (s : GameState) (m : Move) (s' : GameState)
    (hred : board_any s.board 1 = true)
    (hblack : board_any s.board (-1) = true)
    (hmv : make_move s m = (true, s')) :
    (s'.game_over = true ↔
      (board_any s'.board 1 = false ∨ board_any s'.board (-1) = false)) ∧
    (board_any s'.board 1 = false →
      s'.winner = some Player.black ∧ board_any s'.board (-1) = true) ∧
    (board_any s'.board (-1) = false →
      s'.winner = some Player.red ∧ board_any s'.board 1 = true) := by
  rcases m with ⟨x1, y1, x2, y2⟩
  unfold make_move at hmv
  by_cases hg : s.game_over
  · rw [if_pos hg] at hmv
    exact absurd (congrArg Prod.fst hmv) (by simp)
  · rw [if_neg hg] at hmv
    by_cases hm : ((x1, y1, x2, y2) : Move) ∈
        get_legal_moves s.board s.current_player
    · rw [if_pos hm] at hmv
      rcases get_legal_moves_shape s.board s.current_player _ hm with
        ⟨x, y, hcell, hown, nx, ny, heq, hok, hle, hne⟩
      obtain ⟨h1, h2, h3, h4⟩ : x1 = x ∧ y1 = y ∧ x2 = nx ∧ y2 = ny := by
        simpa [Prod.ext_iff] using heq
      subst h1
      subst h2
      subst h3
      subst h4
      have hmv2 : check_game_over
          { board := setCell (setCell s.board x2 y2 (s.board x1 y1)) x1 y1 0
            current_player :=
              if s.current_player = Player.red then Player.black else Player.red
            game_over := s.game_over
            winner := s.winner
            move_history :=
              s.move_history ++ [(s.current_player, (x1, y1, x2, y2), s.board x2 y2)] } =
          s' := congrArg Prod.snd hmv
      subst hmv2
      set b2 := setCell (setCell s.board x2 y2 (s.board x1 y1)) x1 y1 0 with hb2def
      unfold cellOk at hok
      obtain ⟨ho1, ho2, ho3, ho4⟩ := hok
      have hsq : signOf s.current_player * signOf s.current_player = 1 := by
        cases s.current_player <;> rfl
      have hsurv : board_any b2 (signOf s.current_player) = true := by
        have hpres : board_any s.board (signOf s.current_player) = true := by
          cases s.current_player
          · exact hred
          · exact hblack
        rcases (board_any_iff _ _).1 hpres with ⟨i, hi, j, hj, hij⟩
        rw [board_any_iff]
        by_cases hsrc : ((i : ℤ) = x1 ∧ (j : ℤ) = y1)
        · have hb2v : b2 x2 y2 = s.board x1 y1 := by
            rw [hb2def, setCell_other _ _ _ _ _ _ hne, setCell_same]
          refine ⟨x2.toNat, by omega, y2.toNat, by omega, ?_⟩
          have hcx : ((x2.toNat : ℕ) : ℤ) = x2 := Int.toNat_of_nonneg ho1
          have hcy : ((y2.toNat : ℕ) : ℤ) = y2 := Int.toNat_of_nonneg ho3
          rw [hcx, hcy, hb2v, ← hsrc.1, ← hsrc.2]
          exact hij
        · have hdst : ¬((i : ℤ) = x2 ∧ (j : ℤ) = y2) := by
            rintro ⟨hc1, hc2⟩
            rw [hc1, hc2] at hij
            rw [hij, hsq] at hle
            omega
          have hb2v : b2 (i : ℤ) (j : ℤ) = s.board (i : ℤ) (j : ℤ) := by
            rw [hb2def, setCell_other _ _ _ _ _ _ hsrc,
              setCell_other _ _ _ _ _ _ hdst]
          exact ⟨i, hi, j, hj, by rw [hb2v]; exact hij⟩
      have hgf : s.game_over = false := by
        rcases Bool.eq_false_or_eq_true s.game_over with h | h
        · exact absurd h hg
        · exact h
      obtain ⟨hbrd, hiff, hwb, hwr⟩ := check_game_over_spec
        { board := b2
          current_player :=
            if s.current_player = Player.red then Player.black else Player.red
          game_over := s.game_over
          winner := s.winner
          move_history :=
            s.move_history ++
              [(s.current_player, (x1, y1, x2, y2), s.board x2 y2)] } hgf
      rw [hbrd]
      refine ⟨hiff, fun hc => ?_, fun hc => ?_⟩
      · have hp : s.current_player = Player.black := by
          cases hpc : s.current_player
          · rw [hpc] at hsurv
            simp only [signOf] at hsurv
            rw [hsurv] at hc
            cases hc
          · rfl
        have hsurvB : board_any b2 (-1) = true := by
          rw [hp] at hsurv
          simpa [signOf] using hsurv
        exact ⟨hwb hc, hsurvB⟩
      · have hp : s.current_player = Player.red := by
          cases hpc : s.current_player
          · rfl
          · rw [hpc] at hsurv
            simp only [signOf] at hsurv
            rw [hsurv] at hc
            cases hc
        have hsurvR : board_any b2 1 = true := by
          rw [hp] at hsurv
          simpa [signOf] using hsurv
        refine ⟨hwr ?_ hc, hsurvR⟩
        rw [hsurvR]
        simp
    · rw [if_neg hm] at hmv
      exact absurd (congrArg Prod.fst hmv) (by simp)

end Xiangqi

namespace Xiangqi

/-- Witness for C6: the opening soldier push from the fresh game. -/
theorem general_capture_terminal_witness :
    (((make_move initGame (6, 0, 5, 0)).2.game_over = true ↔
      (board_any (make_move initGame (6, 0, 5, 0)).2.board 1 = false ∨
       board_any (make_move initGame (6, 0, 5, 0)).2.board (-1) = false)) ∧
    (board_any (make_move initGame (6, 0, 5, 0)).2.board 1 = false →
      (make_move initGame (6, 0, 5, 0)).2.winner = some Player.black ∧
      board_any (make_move initGame (6, 0, 5, 0)).2.board (-1) = true) ∧
    (board_any (make_move initGame (6, 0, 5, 0)).2.board (-1) = false →
      (make_move initGame (6, 0, 5, 0)).2.winner = some Player.red ∧
      board_any (make_move initGame (6, 0, 5, 0)).2.board 1 = true)) := by
  have h1 : (make_move initGame (6, 0, 5, 0)).1 = true := by decide
  exact general_capture_terminal initGame (6, 0, 5, 0) _ (by decide) (by decide)
    (by rw [← h1])

/-- The 90 on-board cells, as a finite set of integer coordinate pairs. -/
def boardGrid : Finset (ℤ × ℤ) := (Finset.Icc (0 : ℤ) 9) ×ˢ (Finset.Icc (0 : ℤ) 8)

/-- How many on-board cells hold the value `v`. -/
def genCount (b : Board) (v : ℤ) : ℕ :=
  (boardGrid.filter (fun q => b q.1 q.2 = v)).card

/-- The success path of `make_move` either leaves the state alone or
rewrites the board by the two cell assignments of the source. -/
theorem make_move_state (s : GameState) (m : Move) :
    (make_move s m).2 = s ∨
    ∃ x1 y1 x2 y2 : ℤ, m = (x1, y1, x2, y2) ∧
      ((x1, y1, x2, y2) : Move) ∈ get_legal_moves s.board s.current_player ∧
      (make_move s m).2.board =
        setCell (setCell s.board x2 y2 (s.board x1 y1)) x1 y1 0 := by
  rcases m with ⟨x1, y1, x2, y2⟩
  unfold make_move
  by_cases hg : s.game_over
  · rw [if_pos hg]
    exact Or.inl rfl
  · rw [if_neg hg]
    by_cases hm : ((x1, y1, x2, y2) : Move) ∈
        get_legal_moves s.board s.current_player
    · rw [if_pos hm]
      exact Or.inr ⟨x1, y1, x2, y2, rfl, hm, check_game_over_board _⟩
    · rw [if_neg hm]
      exact Or.inl rfl

/-- Moving one piece and overwriting the destination never increases the
number of cells holding a fixed nonzero value. -/
theorem genCount_move_le (b : Board) (x1 y1 x2 y2 v : ℤ) (hv : v ≠ 0)
    (hs : (x1, y1) ∈ boardGrid) (hd : (x2, y2) ∈ boardGrid)
    (hne : ¬(x2 = x1 ∧ y2 = y1)) :
    genCount (setCell (setCell b x2 y2 (b x1 y1)) x1 y1 0) v ≤ genCount b v := by
  unfold genCount
  apply Finset.card_le_card_of_injOn
    (fun q => Equiv.swap ((x1, y1) : ℤ × ℤ) ((x2, y2) : ℤ × ℤ) q)
  · intro q hq
    rw [Finset.mem_filter] at hq ⊢
    obtain ⟨hqg, hqv⟩ := hq
    have hq_src : q ≠ (x1, y1) := by
      rintro rfl
      apply hv
      rw [← hqv]
      exact setCell_same _ _ _ _
    by_cases hq_dst : q = (x2, y2)
    · subst hq_dst
      rw [Equiv.swap_apply_right]
      refine ⟨hs, ?_⟩
      have hb2d : setCell (setCell b x2 y2 (b x1 y1)) x1 y1 0 x2 y2 = b x1 y1 := by
        rw [setCell_other _ _ _ _ _ _ hne, setCell_same]
      show b x1 y1 = v
      rw [← hb2d]
      exact hqv
    · have hswap : Equiv.swap ((x1, y1) : ℤ × ℤ) ((x2, y2) : ℤ × ℤ) q = q :=
        Equiv.swap_apply_of_ne_of_ne hq_src hq_dst
      simp only [hswap]
      refine ⟨hqg, ?_⟩
      have hq1 : ¬(q.1 = x1 ∧ q.2 = y1) := by
        rintro ⟨ha, hb'⟩
        exact hq_src (Prod.ext ha hb')
      have hq2 : ¬(q.1 = x2 ∧ q.2 = y2) := by
        rintro ⟨ha, hb'⟩
        exact hq_dst (Prod.ext ha hb')
      rw [← hqv, setCell_other _ _ _ _ _ _ hq1, setCell_other _ _ _ _ _ _ hq2]
  · exact (Equiv.injective _).injOn

theorem cellOk_mem_boardGrid (x y : ℤ) (h : cellOk x y) :
    ((x, y) : ℤ × ℤ) ∈ boardGrid := by
  unfold cellOk at h
  simp only [boardGrid, Finset.mem_product, Finset.mem_Icc]
  omega

/-- One `make_move` call never increases the number of cells holding a fixed
nonzero value. -/
theorem make_move_genCount (s : GameState) (m : Move) (v : ℤ) (hv : v ≠ 0) :
    genCount (make_move s m).2.board v ≤ genCount s.board v := by
  rcases make_move_state s m with h | ⟨x1, y1, x2, y2, rfl, hm, hb⟩
  · rw [h]
  · rw [hb]
    rcases get_legal_moves_shape s.board s.current_player _ hm with
      ⟨x, y, hcell, hown, nx, ny, heq, hok, hle, hne⟩
    obtain ⟨h1, h2, h3, h4⟩ : x1 = x ∧ y1 = y ∧ x2 = nx ∧ y2 = ny := by
      simpa [Prod.ext_iff] using heq
    subst h1
    subst h2
    subst h3
    subst h4
    exact genCount_move_le s.board x1 y1 x2 y2 v hv
      (cellOk_mem_boardGrid _ _ hcell) (cellOk_mem_boardGrid _ _ hok) hne

/-- C8: every state reachable from the initial state by any sequence of
`make_move` calls has at most one Red General and at most one Black General
on the board; each move only relocates one piece and overwrites its
destination, so the counts never grow. -/
theorem reachable_general_unique (ms : List Move) :
    genCount (applyMoves initGame ms).board 1 ≤ 1 ∧
    genCount (applyMoves initGame ms).board (-1) ≤ 1 := by
  have key : ∀ (l : List Move) (s : GameState),
      genCount s.board 1 ≤ 1 → genCount s.board (-1) ≤ 1 →
      genCount (applyMoves s l).board 1 ≤ 1 ∧
      genCount (applyMoves s l).board (-1) ≤ 1 := by
    intro l
    induction l with
    | nil =>
      intro s h1 h2
      exact ⟨h1, h2⟩
    | cons m rest ih =>
      intro s h1 h2
      exact ih (make_move s m).2
        (le_trans (make_move_genCount s m 1 one_ne_zero) h1)
        (le_trans (make_move_genCount s m (-1) (by norm_num)) h2)
  exact key ms initGame (by decide) (by decide)

end Xiangqi
